import Mathlib

/-!
Shallow embedding of the pairs-trading core of the ALGO repository
(`src/main.py`, `src/pair.py`, `src/trading_pair.py`) and proofs about it.

Numbers are modelled as rationals (`ℚ`); the external statistics service
(cointegration test, OLS regression, ADF test) and the order-quantity
calculator are modelled as explicit inputs.  Python exceptions raised by the
statistics service are modelled with `Except`.
-/

namespace Algo

/-- Class-level configuration constants of `PairsTrading` in `src/main.py`:
`_open_size`, `_close_size`, `_stop_loss_size`, `_leverage`, `_pair_num`. -/
structure Cfg where
  openSize : ℚ
  closeSize : ℚ
  stopLossSize : ℚ
  leverage : ℚ
  pairNum : ℚ
  deriving DecidableEq, Repr

/-- Identity of a `Pairs` object as used as a `_trading_pairs` dict key and for
membership tests against `_selected_pair`: a pair id plus the two instruments'
symbols (`pair.a.symbol`, `pair.b.symbol`), symbols being numbered. -/
structure TPair where
  pid : Nat
  symA : Nat
  symB : Nat
  deriving DecidableEq, Repr

/-- The `TradingPair` object of `src/trading_pair.py`: the two tickets' signed
quantities and the frozen model snapshot captured at entry. -/
structure TradingPair where
  ticket_a_qty : ℚ
  ticket_b_qty : ℚ
  model_intercept : ℚ
  model_slope : ℚ
  mean_error : ℚ
  epsilon : ℚ
  deriving DecidableEq, Repr

/-- Live statistics read off a selected `Pairs` object inside `on_data`:
`pair.model.params[0]`, `pair.model.params[1]`, `pair.mean_error`,
`pair.epsilon`. -/
structure LiveStats where
  intercept : ℚ
  slope : ℚ
  mean_error : ℚ
  epsilon : ℚ
  deriving DecidableEq, Repr

/-- A market order: the target symbol and the signed quantity passed to
`self.market_order`. -/
abbrev Order := Nat × ℚ

/-- One iteration of the closing loop of `PairsTrading.on_data`
(src/main.py lines 81-108) for a single `(pair, trading_pair)` entry:
forced close when the pair is no longer in `_selected_pair`, otherwise the
exit / stop-loss rules evaluated on the frozen snapshot.  Returns the orders
issued for this entry, and `none` when the entry is popped from
`_trading_pairs`, `some` when it is kept. -/
def pairCloseStep (cfg : Cfg) (selIds : List TPair) (prices : Nat → ℚ)
    (e : TPair × TradingPair) : List Order × Option (TPair × TradingPair) :=
  let p := e.1
  let tp := e.2
  if p ∉ selIds then
    ([(p.symA, -tp.ticket_a_qty), (p.symB, -tp.ticket_b_qty)], none)
  else
    let error := prices p.symA - (tp.model_intercept + tp.model_slope * prices p.symB)
    if tp.ticket_a_qty > 0 ∧
        (error > tp.mean_error - cfg.closeSize * tp.epsilon ∨
         error < tp.mean_error - cfg.stopLossSize * tp.epsilon) then
      ([(p.symA, -tp.ticket_a_qty), (p.symB, -tp.ticket_b_qty)], none)
    else if tp.ticket_a_qty < 0 ∧
        (error < tp.mean_error + cfg.closeSize * tp.epsilon ∨
         error > tp.mean_error + cfg.stopLossSize * tp.epsilon) then
      ([(p.symA, -tp.ticket_a_qty), (p.symB, -tp.ticket_b_qty)], none)
    else ([], some e)

/-- The closing loop of `on_data` (src/main.py lines 81-108): iterates over a
copy of `_trading_pairs`, emitting orders and popping closed entries.  The dict
is modelled as an association list in insertion order. -/
def closePhase (cfg : Cfg) (selIds : List TPair) (prices : Nat → ℚ)
    (t : List (TPair × TradingPair)) : List Order × List (TPair × TradingPair) :=
  (t.flatMap fun e => (pairCloseStep cfg selIds prices e).1,
   t.filterMap fun e => (pairCloseStep cfg selIds prices e).2)

/-- The target fraction `self._leverage / self._pair_num / 2` used on entry
(src/main.py lines 119-120, 128-129). -/
def entryQty (cfg : Cfg) : ℚ := cfg.leverage / cfg.pairNum / 2

/-- The branch structure of the entry block of `on_data` (src/main.py
lines 113-134) for a single flat selected pair: evaluate the live-model error
`price_a - (model.params[0] + model.params[1] * price_b)`; below the lower
entry band open long-spread, above the upper entry band open short-spread,
otherwise do nothing.  Returns the `(qty_a, qty_b)` passed to `market_order`;
both are computed by `calculate_order_quantity` (`calcQty`) against `lastSym`,
the leaked loop variable `symbol` of the bar-ingestion loop. -/
def entryDecision (cfg : Cfg) (prices : Nat → ℚ) (calcQty : Nat → ℚ → ℚ)
    (lastSym : Nat) (p : TPair) (ls : LiveStats) : Option (ℚ × ℚ) :=
  let error := prices p.symA - (ls.intercept + ls.slope * prices p.symB)
  if error < ls.mean_error - cfg.openSize * ls.epsilon then
    some (calcQty lastSym (entryQty cfg), calcQty lastSym (-entryQty cfg))
  else if error > ls.mean_error + cfg.openSize * ls.epsilon then
    some (calcQty lastSym (-entryQty cfg), calcQty lastSym (entryQty cfg))
  else none

/-- The entry loop of `on_data` (src/main.py lines 111-134): for each pair of
`_selected_pair` in order, if the pair has no entry in `_trading_pairs`,
apply `entryDecision`; on an entry, issue the two leg orders and store a
`TradingPair` with the ticket quantities and the frozen copy of the live
model (`model.params[0]`, `model.params[1]`, `mean_error`, `epsilon`). -/
def entryLoop (cfg : Cfg) (prices : Nat → ℚ) (calcQty : Nat → ℚ → ℚ) (lastSym : Nat) :
    List (TPair × LiveStats) → List (TPair × TradingPair) →
    List Order × List (TPair × TradingPair)
  | [], t => ([], t)
  | (p, ls) :: rest, t =>
    if p ∈ t.map Prod.fst then entryLoop cfg prices calcQty lastSym rest t
    else
      match entryDecision cfg prices calcQty lastSym p ls with
      | none => entryLoop cfg prices calcQty lastSym rest t
      | some (qa, qb) =>
        let r := entryLoop cfg prices calcQty lastSym rest
          (t ++ [(p, ⟨qa, qb, ls.intercept, ls.slope, ls.mean_error, ls.epsilon⟩)])
        ((p.symA, qa) :: (p.symB, qb) :: r.1, r.2)

/-- The per-update inputs of `on_data`: the current `_selected_pair` list with
each selected pair's live statistics, the current close prices per symbol, the
order-quantity calculator, and the leaked loop variable `symbol` (the last
symbol iterated in the bar-ingestion loop). -/
structure UpdIn where
  selected : List (TPair × LiveStats)
  prices : Nat → ℚ
  calcQty : Nat → ℚ → ℚ
  lastSym : Nat

/-- One `on_data` update (src/main.py lines 70-134) acting on the
`_trading_pairs` map: the closing loop followed by the entry loop.  Returns
the orders issued during the update and the new `_trading_pairs`. -/
def onData (cfg : Cfg) (u : UpdIn) (t : List (TPair × TradingPair)) :
    List Order × List (TPair × TradingPair) :=
  let c := closePhase cfg (u.selected.map Prod.fst) u.prices t
  let e := entryLoop cfg u.prices u.calcQty u.lastSym u.selected c.2
  (c.1 ++ e.1, e.2)

/-- The initial `_trading_pairs` map: empty (src/main.py line 36). -/
def initTrading : List (TPair × TradingPair) := []

/-- Folding `on_data` over a sequence of market updates. -/
def run (cfg : Cfg) (t : List (TPair × TradingPair)) (us : List UpdIn) :
    List (TPair × TradingPair) :=
  us.foldl (fun s u => (onData cfg u s).2) t

/-- A candidate pair as seen by `_generate_pairs` (src/main.py lines 47-68):
its identity, its correlation, and the two statistics produced by
`Pairs.cointegration_test`: the Engle-Granger p-value (the test succeeds iff it
is below 0.05; exception paths are modelled separately) and the ADF residual
p-value `stationary_p`. -/
structure Cand where
  pair : TPair
  correlation : ℚ
  coint_p : ℚ
  stationary_p : ℚ
  deriving DecidableEq, Repr

/-- The filter of `_generate_pairs` (src/main.py lines 49-57): skip a candidate
whose correlation is below `_min_corr_threshold`; keep it when
`cointegration_test()` succeeds and `stationary_p < 0.05`. -/
def candKeep (minCorr : ℚ) (c : Cand) : Bool :=
  !decide (c.correlation < minCorr) &&
    (decide (c.coint_p < 0.05) && decide (c.stationary_p < 0.05))

/-- The `_generate_pairs` method (src/main.py lines 47-68): filter candidates,
return `[]` when none survive, else stable-sort by correlation descending,
truncate to `_pair_num` when strictly longer, and stable-sort the truncated
list by `stationary_p` ascending. -/
def generatePairs (minCorr : ℚ) (pairNum : Nat) (l : List Cand) : List Cand :=
  let selected := l.filter (candKeep minCorr)
  if selected = [] then []
  else
    let sorted := selected.mergeSort fun x y => decide (y.correlation ≤ x.correlation)
    let capped := if pairNum < sorted.length then sorted.take pairNum else sorted
    capped.mergeSort fun x y => decide (x.stationary_p ≤ y.stationary_p)

/-- The result of `sm.ols(...).fit()` as used by `cointegration_test`
(src/pair.py line 35): intercept (`params[0]`), slope (`params[1]`) and the
residual series. -/
structure OlsFit where
  intercept : ℚ
  slope : ℚ
  resid : List ℚ
  deriving DecidableEq, Repr

/-- Arithmetic mean of a rational series, as computed by `np.mean`. -/
def npMean (l : List ℚ) : ℚ := l.sum / l.length

/-- Population standard deviation of a rational series, as computed by
`np.std` (`ddof = 0`): square root of the mean squared deviation. -/
noncomputable def npStd (l : List ℚ) : ℝ :=
  Real.sqrt (((l.map fun x => ((x : ℝ) - (npMean l : ℝ)) ^ 2).sum) / l.length)

/-- The mutable statistical state of a `Pairs` object (src/pair.py):
`self.model` (initially `None`), `self.stationary_p` (an attribute first
assigned inside `cointegration_test`, hence optional), `self.mean_error` and
`self.epsilon` (both initially `0`). -/
structure PairsModel where
  model : Option OlsFit
  stationary_p : Option ℚ
  mean_error : ℚ
  epsilon : ℝ

/-- The statistical state set up by `Pairs.__init__` (src/pair.py
lines 16-18). -/
def pairsInit : PairsModel := ⟨none, none, 0, 0⟩

/-- The `Pairs.cointegration_test` method (src/pair.py lines 28-40), with the
external statistics calls as `Except`-valued inputs (`.error` models an
exception raised on numeric instability): `cointRes` is `coint(...)[1]`,
`olsRes` the fitted regression, `adfRes` is `adfuller(self.model.resid)[1]`.
Attribute assignments happen in source order, so an exception raised by
`adfuller` propagates with `self.model` already overwritten while
`stationary_p`, `mean_error` and `epsilon` keep their previous values. -/
noncomputable def cointegration_test (cointRes : Except Unit ℚ)
    (olsRes : Except Unit OlsFit) (adfRes : Except Unit ℚ) (s : PairsModel) :
    Except Unit Bool × PairsModel :=
  match cointRes with
  | .error e => (.error e, s)
  | .ok p =>
    if p ≥ 0.05 then (.ok false, s)
    else
      match olsRes with
      | .error e => (.error e, s)
      | .ok fit =>
        let s1 : PairsModel := { s with model := some fit }
        match adfRes with
        | .error e => (.error e, s1)
        | .ok ap =>
          (.ok true,
           { s1 with stationary_p := some ap,
                     mean_error := npMean fit.resid,
                     epsilon := npStd fit.resid })

/-- The synchronized overlap built by `Pairs._data_frame` (src/pair.py
lines 20-23): align the two series row by row and drop every row where either
side is missing (`dropna`). -/
def mergedRows (ra rb : List (Option ℚ)) : List (ℚ × ℚ) :=
  (ra.zip rb).filterMap fun q =>
    match q with
    | (some x, some y) => some (x, y)
    | _ => none

/-- Centering of a series at its arithmetic mean, the inner step of the
Pearson correlation computed by `DataFrame.corr`. -/
noncomputable def center (l : List ℝ) : List ℝ :=
  l.map fun x => x - l.sum / l.length

/-- Pointwise product sum of two equally long series. -/
def dot (xs ys : List ℝ) : ℝ :=
  ((xs.zip ys).map fun p => p.1 * p.2).sum

/-- Pearson correlation of the two columns of the merged frame, as computed by
`DataFrame.corr` and read at `iloc[0][1]` (src/pair.py line 26): centered
cross moment over the product of the centered norms. -/
noncomputable def pearson (rows : List (ℚ × ℚ)) : ℝ :=
  let xs := center (rows.map fun r => (r.1 : ℝ))
  let ys := center (rows.map fun r => (r.2 : ℝ))
  dot xs ys / (Real.sqrt (dot xs xs) * Real.sqrt (dot ys ys))

/-- The `Pairs.correlation` method (src/pair.py lines 25-26): Pearson
correlation over the synchronized overlap of the two raw series. -/
noncomputable def correlation (ra rb : List (Option ℚ)) : ℝ :=
  pearson (mergedRows ra rb)

/-- A key of an association list with nodup keys determines its value. -/
theorem eq_of_keys_nodup {α β : Type} [DecidableEq α] :
    ∀ {t : List (α × β)}, (t.map Prod.fst).Nodup →
      ∀ {p : α} {a b : β}, (p, a) ∈ t → (p, b) ∈ t → a = b := by
  intro t
  induction t with
  | nil =>
    intro _ p a b ha _
    exact absurd ha (List.not_mem_nil _)
  | cons e rest ih =>
    intro hnd p a b ha hb
    obtain ⟨q, c⟩ := e
    simp only [List.map_cons, List.nodup_cons] at hnd
    rcases List.mem_cons.mp ha with ha1 | ha1 <;>
      rcases List.mem_cons.mp hb with hb1 | hb1
    · exact congrArg Prod.snd (ha1.trans hb1.symm)
    · cases ha1
      exact absurd (List.mem_map_of_mem Prod.fst hb1) hnd.1
    · cases hb1
      exact absurd (List.mem_map_of_mem Prod.fst ha1) hnd.1
    · exact ih hnd.2 ha1 hb1

/-- Each `pairCloseStep` either keeps the entry unchanged or pops it while
issuing exactly the two closing orders, one per leg. -/
theorem pairCloseStep_cases (cfg : Cfg) (selIds : List TPair) (prices : Nat → ℚ)
    (e : TPair × TradingPair) :
    pairCloseStep cfg selIds prices e = ([], some e) ∨
    pairCloseStep cfg selIds prices e =
      ([(e.1.symA, -e.2.ticket_a_qty), (e.1.symB, -e.2.ticket_b_qty)], none) := by
  obtain ⟨p, tp⟩ := e
  simp only [pairCloseStep]
  split
  · exact Or.inr rfl
  · split
    · exact Or.inr rfl
    · split
      · exact Or.inr rfl
      · exact Or.inl rfl

/-- The kept part of the closing loop is a sublist of the original map. -/
theorem closePhase_sublist (cfg : Cfg) (selIds : List TPair) (prices : Nat → ℚ)
    (t : List (TPair × TradingPair)) :
    ((closePhase cfg selIds prices t).2).Sublist t := by
  unfold closePhase
  induction t with
  | nil => simp
  | cons e rest ih =>
    simp only [List.filterMap_cons]
    rcases pairCloseStep_cases cfg selIds prices e with h | h <;> rw [h]
    · exact ih.cons₂ e
    · exact ih.cons e

/-- The closing loop preserves nodup keys. -/
theorem closePhase_keys_nodup (cfg : Cfg) (selIds : List TPair) (prices : Nat → ℚ)
    {t : List (TPair × TradingPair)} (hnd : (t.map Prod.fst).Nodup) :
    (((closePhase cfg selIds prices t).2).map Prod.fst).Nodup :=
  ((closePhase_sublist cfg selIds prices t).map Prod.fst).nodup hnd

/-- With nodup keys, a pair's key survives the closing loop iff its
`pairCloseStep` keeps its entry. -/
theorem mem_closePhase_iff (cfg : Cfg) (selIds : List TPair) (prices : Nat → ℚ)
    {t : List (TPair × TradingPair)} {p : TPair} {tp : TradingPair}
    (hnd : (t.map Prod.fst).Nodup) (hmem : (p, tp) ∈ t) :
    p ∈ ((closePhase cfg selIds prices t).2).map Prod.fst ↔
      (pairCloseStep cfg selIds prices (p, tp)).2 = some (p, tp) := by
  simp only [closePhase]
  constructor
  · intro hp
    rcases List.mem_map.mp hp with ⟨e', he', hfst⟩
    rcases List.mem_filterMap.mp he' with ⟨e, he, hfe⟩
    rcases pairCloseStep_cases cfg selIds prices e with h | h
    · rw [h] at hfe
      simp only [Option.some.injEq] at hfe
      subst hfe
      obtain ⟨q, tq⟩ := e
      simp only at hfst
      subst hfst
      have htq : tq = tp := eq_of_keys_nodup hnd he hmem
      subst htq
      rw [h]
    · rw [h] at hfe
      simp at hfe
  · intro hkeep
    have hin : (p, tp) ∈ List.filterMap
        (fun e => (pairCloseStep cfg selIds prices e).2) t :=
      List.mem_filterMap.mpr ⟨(p, tp), hmem, hkeep⟩
    exact List.mem_map_of_mem Prod.fst hin

/-- Orders issued by a `pairCloseStep` on a map entry belong to the closing
loop's order stream. -/
theorem pairCloseStep_orders_sub (cfg : Cfg) (selIds : List TPair)
    (prices : Nat → ℚ) {t : List (TPair × TradingPair)} {e : TPair × TradingPair}
    (he : e ∈ t) {o : Order} (ho : o ∈ (pairCloseStep cfg selIds prices e).1) :
    o ∈ (closePhase cfg selIds prices t).1 := by
  simp only [closePhase]
  exact List.mem_flatMap.mpr ⟨e, he, ho⟩

/-- The entry decision opens long-spread exactly on the lower-band condition. -/
theorem entryDecision_long {cfg : Cfg} {prices : Nat → ℚ} {calcQty : Nat → ℚ → ℚ}
    {lastSym : Nat} {p : TPair} {ls : LiveStats}
    (h : prices p.symA - (ls.intercept + ls.slope * prices p.symB) <
      ls.mean_error - cfg.openSize * ls.epsilon) :
    entryDecision cfg prices calcQty lastSym p ls =
      some (calcQty lastSym (entryQty cfg), calcQty lastSym (-entryQty cfg)) := by
  simp only [entryDecision]
  rw [if_pos h]

/-- The entry decision opens short-spread exactly on the upper-band condition
(when the lower band did not fire). -/
theorem entryDecision_short {cfg : Cfg} {prices : Nat → ℚ} {calcQty : Nat → ℚ → ℚ}
    {lastSym : Nat} {p : TPair} {ls : LiveStats}
    (h1 : ¬ prices p.symA - (ls.intercept + ls.slope * prices p.symB) <
      ls.mean_error - cfg.openSize * ls.epsilon)
    (h2 : prices p.symA - (ls.intercept + ls.slope * prices p.symB) >
      ls.mean_error + cfg.openSize * ls.epsilon) :
    entryDecision cfg prices calcQty lastSym p ls =
      some (calcQty lastSym (-entryQty cfg), calcQty lastSym (entryQty cfg)) := by
  simp only [entryDecision]
  rw [if_neg h1, if_pos h2]

/-- The entry decision does nothing when the error is inside both entry
bands. -/
theorem entryDecision_none {cfg : Cfg} {prices : Nat → ℚ} {calcQty : Nat → ℚ → ℚ}
    {lastSym : Nat} {p : TPair} {ls : LiveStats}
    (h1 : ¬ prices p.symA - (ls.intercept + ls.slope * prices p.symB) <
      ls.mean_error - cfg.openSize * ls.epsilon)
    (h2 : ¬ prices p.symA - (ls.intercept + ls.slope * prices p.symB) >
      ls.mean_error + cfg.openSize * ls.epsilon) :
    entryDecision cfg prices calcQty lastSym p ls = none := by
  simp only [entryDecision]
  rw [if_neg h1, if_neg h2]

/-- The entry loop only appends: the resulting map is the input map followed
by new entries whose keys were absent from the input map and belong to the
selected list. -/
theorem entryLoop_decomp (cfg : Cfg) (prices : Nat → ℚ) (calcQty : Nat → ℚ → ℚ)
    (lastSym : Nat) :
    ∀ (sel : List (TPair × LiveStats)) (t : List (TPair × TradingPair)),
      ∃ ts, (entryLoop cfg prices calcQty lastSym sel t).2 = t ++ ts ∧
        ∀ e ∈ ts, e.1 ∉ t.map Prod.fst ∧ e.1 ∈ sel.map Prod.fst := by
  intro sel
  induction sel with
  | nil =>
    intro t
    exact ⟨[], by simp [entryLoop]⟩
  | cons hd rest ih =>
    intro t
    obtain ⟨p, ls⟩ := hd
    by_cases hmem : p ∈ t.map Prod.fst
    · obtain ⟨ts, hts, hfresh⟩ := ih t
      refine ⟨ts, ?_, ?_⟩
      · simp only [entryLoop, if_pos hmem]
        exact hts
      · intro e he
        exact ⟨(hfresh e he).1, List.mem_cons_of_mem _ (hfresh e he).2⟩
    · cases hdec : entryDecision cfg prices calcQty lastSym p ls with
      | none =>
        obtain ⟨ts, hts, hfresh⟩ := ih t
        refine ⟨ts, ?_, ?_⟩
        · simp only [entryLoop, if_neg hmem, hdec]
          exact hts
        · intro e he
          exact ⟨(hfresh e he).1, List.mem_cons_of_mem _ (hfresh e he).2⟩
      | some q =>
        obtain ⟨qa, qb⟩ := q
        set rec : TradingPair :=
          ⟨qa, qb, ls.intercept, ls.slope, ls.mean_error, ls.epsilon⟩ with hrec
        obtain ⟨ts, hts, hfresh⟩ := ih (t ++ [(p, rec)])
        refine ⟨(p, rec) :: ts, ?_, ?_⟩
        · simp only [entryLoop, if_neg hmem, hdec]
          rw [hts]
          simp
        · intro e he
          rcases List.mem_cons.mp he with he1 | he1
          · subst he1
            exact ⟨hmem, by simp⟩
          · have h1 := (hfresh e he1).1
            simp only [List.map_append, List.mem_append] at h1
            push_neg at h1
            exact ⟨h1.1, List.mem_cons_of_mem _ (hfresh e he1).2⟩

/-- Keys present before the entry loop are still present after it. -/
theorem entryLoop_keys_mono (cfg : Cfg) (prices : Nat → ℚ) (calcQty : Nat → ℚ → ℚ)
    (lastSym : Nat) (sel : List (TPair × LiveStats))
    {t : List (TPair × TradingPair)} {p : TPair} (hp : p ∈ t.map Prod.fst) :
    p ∈ ((entryLoop cfg prices calcQty lastSym sel t).2).map Prod.fst := by
  obtain ⟨ts, hts, -⟩ := entryLoop_decomp cfg prices calcQty lastSym sel t
  rw [hts]
  simp only [List.map_append, List.mem_append]
  exact Or.inl hp

/-- A key absent from both the selected list and the current map is still
absent after the entry loop. -/
theorem entryLoop_fresh_keys (cfg : Cfg) (prices : Nat → ℚ) (calcQty : Nat → ℚ → ℚ)
    (lastSym : Nat) {sel : List (TPair × LiveStats)}
    {t : List (TPair × TradingPair)} {p : TPair}
    (hsel : p ∉ sel.map Prod.fst) (hp : p ∉ t.map Prod.fst) :
    p ∉ ((entryLoop cfg prices calcQty lastSym sel t).2).map Prod.fst := by
  obtain ⟨ts, hts, hfresh⟩ := entryLoop_decomp cfg prices calcQty lastSym sel t
  rw [hts]
  simp only [List.map_append, List.mem_append]
  rintro (h | h)
  · exact hp h
  · rcases List.mem_map.mp h with ⟨e, he, hfst⟩
    exact hsel (hfst ▸ (hfresh e he).2)

/-- The entry loop preserves nodup keys. -/
theorem entryLoop_keys_nodup (cfg : Cfg) (prices : Nat → ℚ) (calcQty : Nat → ℚ → ℚ)
    (lastSym : Nat) :
    ∀ (sel : List (TPair × LiveStats)) {t : List (TPair × TradingPair)},
      (t.map Prod.fst).Nodup →
      (((entryLoop cfg prices calcQty lastSym sel t).2).map Prod.fst).Nodup := by
  intro sel
  induction sel with
  | nil =>
    intro t hnd
    simpa [entryLoop] using hnd
  | cons hd rest ih =>
    intro t hnd
    obtain ⟨p, ls⟩ := hd
    by_cases hmem : p ∈ t.map Prod.fst
    · simp only [entryLoop, if_pos hmem]
      exact ih hnd
    · cases hdec : entryDecision cfg prices calcQty lastSym p ls with
      | none =>
        simp only [entryLoop, if_neg hmem, hdec]
        exact ih hnd
      | some q =>
        obtain ⟨qa, qb⟩ := q
        simp only [entryLoop, if_neg hmem, hdec]
        refine ih ?_
        simp only [List.map_append, List.map_cons, List.map_nil]
        rw [List.nodup_append]
        exact ⟨hnd, List.nodup_singleton _, by simpa using hmem⟩

/-- When a flat selected pair's entry decision fires, the entry loop records
the new position, frozen from that pair's live statistics, and issues the two
leg orders. -/
theorem entryLoop_enter (cfg : Cfg) (prices : Nat → ℚ) (calcQty : Nat → ℚ → ℚ)
    (lastSym : Nat) :
    ∀ {sel : List (TPair × LiveStats)} {t : List (TPair × TradingPair)}
      {p : TPair} {ls : LiveStats},
      (sel.map Prod.fst).Nodup → (p, ls) ∈ sel → p ∉ t.map Prod.fst →
      ∀ {qa qb : ℚ},
        entryDecision cfg prices calcQty lastSym p ls = some (qa, qb) →
        (p, (⟨qa, qb, ls.intercept, ls.slope, ls.mean_error, ls.epsilon⟩ : TradingPair))
            ∈ (entryLoop cfg prices calcQty lastSym sel t).2 ∧
          (p.symA, qa) ∈ (entryLoop cfg prices calcQty lastSym sel t).1 ∧
          (p.symB, qb) ∈ (entryLoop cfg prices calcQty lastSym sel t).1 := by
  intro sel
  induction sel with
  | nil =>
    intro t p ls _ hmem
    exact absurd hmem (List.not_mem_nil _)
  | cons hd rest ih =>
    intro t p ls hnd hmem habs qa qb hdec
    obtain ⟨q, mls⟩ := hd
    simp only [List.map_cons, List.nodup_cons] at hnd
    by_cases hqp : q = p
    · subst hqp
      have hls : mls = ls := by
        rcases List.mem_cons.mp hmem with h | h
        · exact (congrArg Prod.snd h).symm
        · exact absurd (List.mem_map_of_mem Prod.fst h) hnd.1
      subst hls
      simp only [entryLoop, if_neg habs, hdec]
      obtain ⟨ts, hts, -⟩ := entryLoop_decomp cfg prices calcQty lastSym rest
        (t ++ [(q, (⟨qa, qb, mls.intercept, mls.slope, mls.mean_error,
          mls.epsilon⟩ : TradingPair))])
      refine ⟨?_, by simp, by simp⟩
      rw [hts]
      simp
    · have hmem' : (p, ls) ∈ rest := by
        rcases List.mem_cons.mp hmem with h | h
        · exact absurd (congrArg Prod.fst h).symm hqp
        · exact h
      by_cases hqt : q ∈ t.map Prod.fst
      · simp only [entryLoop, if_pos hqt]
        exact ih hnd.2 hmem' habs hdec
      · cases hdq : entryDecision cfg prices calcQty lastSym q mls with
        | none =>
          simp only [entryLoop, if_neg hqt, hdq]
          exact ih hnd.2 hmem' habs hdec
        | some w =>
          obtain ⟨wa, wb⟩ := w
          simp only [entryLoop, if_neg hqt, hdq]
          have habs' : p ∉ (t ++ [(q, (⟨wa, wb, mls.intercept, mls.slope,
              mls.mean_error, mls.epsilon⟩ : TradingPair))]).map Prod.fst := by
            simp only [List.map_append, List.mem_append, List.map_cons,
              List.map_nil, List.mem_singleton]
            rintro (h | h)
            · exact habs h
            · exact hqp (by simpa using h.symm)
          obtain ⟨h1, h2, h3⟩ := ih hnd.2 hmem' habs' hdec
          exact ⟨h1, List.mem_cons_of_mem _ (List.mem_cons_of_mem _ h2),
            List.mem_cons_of_mem _ (List.mem_cons_of_mem _ h3)⟩

/-- When a flat selected pair's entry decision does not fire, the entry loop
leaves that pair without a position. -/
theorem entryLoop_no_entry (cfg : Cfg) (prices : Nat → ℚ) (calcQty : Nat → ℚ → ℚ)
    (lastSym : Nat) :
    ∀ {sel : List (TPair × LiveStats)} {t : List (TPair × TradingPair)}
      {p : TPair} {ls : LiveStats},
      (sel.map Prod.fst).Nodup → (p, ls) ∈ sel → p ∉ t.map Prod.fst →
      entryDecision cfg prices calcQty lastSym p ls = none →
      p ∉ ((entryLoop cfg prices calcQty lastSym sel t).2).map Prod.fst := by
  intro sel
  induction sel with
  | nil =>
    intro t p ls _ hmem
    exact absurd hmem (List.not_mem_nil _)
  | cons hd rest ih =>
    intro t p ls hnd hmem habs hdec
    obtain ⟨q, mls⟩ := hd
    simp only [List.map_cons, List.nodup_cons] at hnd
    by_cases hqp : q = p
    · subst hqp
      have hls : mls = ls := by
        rcases List.mem_cons.mp hmem with h | h
        · exact (congrArg Prod.snd h).symm
        · exact absurd (List.mem_map_of_mem Prod.fst h) hnd.1
      subst hls
      simp only [entryLoop, if_neg habs, hdec]
      exact entryLoop_fresh_keys cfg prices calcQty lastSym hnd.1 habs
    · have hmem' : (p, ls) ∈ rest := by
        rcases List.mem_cons.mp hmem with h | h
        · exact absurd (congrArg Prod.fst h).symm hqp
        · exact h
      by_cases hqt : q ∈ t.map Prod.fst
      · simp only [entryLoop, if_pos hqt]
        exact ih hnd.2 hmem' habs hdec
      · cases hdq : entryDecision cfg prices calcQty lastSym q mls with
        | none =>
          simp only [entryLoop, if_neg hqt, hdq]
          exact ih hnd.2 hmem' habs hdec
        | some w =>
          obtain ⟨wa, wb⟩ := w
          simp only [entryLoop, if_neg hqt, hdq]
          have habs' : p ∉ (t ++ [(q, (⟨wa, wb, mls.intercept, mls.slope,
              mls.mean_error, mls.epsilon⟩ : TradingPair))]).map Prod.fst := by
            simp only [List.map_append, List.mem_append, List.map_cons,
              List.map_nil, List.mem_singleton]
            rintro (h | h)
            · exact habs h
            · exact hqp (by simpa using h.symm)
          exact ih hnd.2 hmem' habs' hdec

/-- One `on_data` update preserves nodup keys of `_trading_pairs`. -/
theorem onData_keys_nodup (cfg : Cfg) (u : UpdIn) {t : List (TPair × TradingPair)}
    (hnd : (t.map Prod.fst).Nodup) : (((onData cfg u t).2).map Prod.fst).Nodup := by
  simp only [onData]
  exact entryLoop_keys_nodup cfg u.prices u.calcQty u.lastSym u.selected
    (closePhase_keys_nodup cfg (u.selected.map Prod.fst) u.prices hnd)

/-- Any sequence of `on_data` updates preserves nodup keys of
`_trading_pairs`. -/
theorem run_keys_nodup (cfg : Cfg) :
    ∀ (us : List UpdIn) {t : List (TPair × TradingPair)},
      (t.map Prod.fst).Nodup → (((run cfg t us).map Prod.fst)).Nodup := by
  intro us
  induction us with
  | nil =>
    intro t hnd
    simpa [run] using hnd
  | cons u rest ih =>
    intro t hnd
    show (((run cfg ((onData cfg u t).2) rest).map Prod.fst)).Nodup
    exact ih (onData_keys_nodup cfg u hnd)

/-- The pair of a key absent from both the selected set and the map stays
absent across a whole `on_data` update. -/
theorem onData_absent_keys (cfg : Cfg) (u : UpdIn) {t : List (TPair × TradingPair)}
    {p : TPair} (hsel : p ∉ u.selected.map Prod.fst) (hp : p ∉ t.map Prod.fst) :
    p ∉ (((onData cfg u t).2).map Prod.fst) := by
  simp only [onData]
  refine entryLoop_fresh_keys cfg u.prices u.calcQty u.lastSym hsel ?_
  intro hmem
  exact hp (((closePhase_sublist cfg (u.selected.map Prod.fst) u.prices t).map
    Prod.fst).mem hmem)

/-- Claim C1: at every point in every execution (any sequence of bar updates
starting from the empty `_trading_pairs`), the open-position map holds at most
one `TradingPair` per pair key, and the entry loop records a position only for
a pair whose key has no current open position: every map entry after the entry
loop either existed before it or has a key that was absent before it. -/
theorem open_position_uniqueness (cfg : Cfg) :
    (∀ us : List UpdIn, (((run cfg initTrading us).map Prod.fst)).Nodup) ∧
    (∀ (prices : Nat → ℚ) (calcQty : Nat → ℚ → ℚ) (lastSym : Nat)
        (sel : List (TPair × LiveStats)) (t : List (TPair × TradingPair))
        (e : TPair × TradingPair),
        e ∈ (entryLoop cfg prices calcQty lastSym sel t).2 →
        e ∈ t ∨ e.1 ∉ t.map Prod.fst) := by
  constructor
  · intro us
    exact run_keys_nodup cfg us (by simp [initTrading])
  · intro prices calcQty lastSym sel t e he
    obtain ⟨ts, hts, hfresh⟩ := entryLoop_decomp cfg prices calcQty lastSym sel t
    rw [hts] at he
    rcases List.mem_append.mp he with h | h
    · exact Or.inl h
    · exact Or.inr (hfresh e h).1

/-- Witness for `open_position_uniqueness` at a concrete input: the position
recorded by a concrete entry (pair `⟨0, 1, 2⟩` entering long-spread from an
empty map) is an entry for a previously position-free pair. -/
theorem open_position_uniqueness_witness :
    ((⟨0, 1, 2⟩, (⟨1/20, -(1/20), 0, 0, 0, 1⟩ : TradingPair)) :
        TPair × TradingPair) ∈ ([] : List (TPair × TradingPair)) ∨
      (⟨0, 1, 2⟩ : TPair) ∉ ([] : List (TPair × TradingPair)).map Prod.fst :=
  (open_position_uniqueness ⟨232/100, 1/2, 6, 1, 10⟩).2
    (fun _ => -3) (fun _ f => f) 0 [(⟨0, 1, 2⟩, ⟨0, 0, 0, 1⟩)] []
    (⟨0, 1, 2⟩, ⟨1/20, -(1/20), 0, 0, 0, 1⟩)
    (by norm_num [entryLoop, entryDecision, entryQty])

/-- For a pair still in the selected set, `pairCloseStep` keeps its entry
exactly when neither exit rule on the frozen snapshot fires. -/
theorem pairCloseStep_keep_iff (cfg : Cfg) (selIds : List TPair)
    (prices : Nat → ℚ) (p : TPair) (tp : TradingPair) (hsel : p ∈ selIds) :
    (pairCloseStep cfg selIds prices (p, tp)).2 = some (p, tp) ↔
      ¬(tp.ticket_a_qty > 0 ∧
          (prices p.symA - (tp.model_intercept + tp.model_slope * prices p.symB) >
              tp.mean_error - cfg.closeSize * tp.epsilon ∨
            prices p.symA - (tp.model_intercept + tp.model_slope * prices p.symB) <
              tp.mean_error - cfg.stopLossSize * tp.epsilon)) ∧
      ¬(tp.ticket_a_qty < 0 ∧
          (prices p.symA - (tp.model_intercept + tp.model_slope * prices p.symB) <
              tp.mean_error + cfg.closeSize * tp.epsilon ∨
            prices p.symA - (tp.model_intercept + tp.model_slope * prices p.symB) >
              tp.mean_error + cfg.stopLossSize * tp.epsilon)) := by
  simp only [pairCloseStep, if_neg (not_not_intro hsel)]
  constructor
  · intro hkeep
    constructor
    · intro hc
      rw [if_pos hc] at hkeep
      exact Option.noConfusion hkeep
    · intro hc
      by_cases h1 : tp.ticket_a_qty > 0 ∧
          (prices p.symA - (tp.model_intercept + tp.model_slope * prices p.symB) >
              tp.mean_error - cfg.closeSize * tp.epsilon ∨
            prices p.symA - (tp.model_intercept + tp.model_slope * prices p.symB) <
              tp.mean_error - cfg.stopLossSize * tp.epsilon)
      · rw [if_pos h1] at hkeep
        exact Option.noConfusion hkeep
      · rw [if_neg h1, if_pos hc] at hkeep
        exact Option.noConfusion hkeep
  · intro hno
    rw [if_neg hno.1, if_neg hno.2]

/-- Claim C2: for a pair holding an open position and still selected, the
exit / stop-loss decision is exactly the band test on the frozen snapshot
(`model_intercept`, `model_slope`, `mean_error`, `epsilon` stored in the
`TradingPair`), a firing exit issues closing orders for both legs, and the
whole closing loop is unchanged by any recalibration of the live models that
keeps the same selected pairs. -/
theorem exit_uses_frozen_snapshot (cfg : Cfg) (u : UpdIn)
    (t : List (TPair × TradingPair)) (p : TPair) (tp : TradingPair)
    (hmem : (p, tp) ∈ t) (hnd : (t.map Prod.fst).Nodup)
    (hsel : p ∈ u.selected.map Prod.fst) :
    (tp.ticket_a_qty > 0 →
      (p ∉ (((closePhase cfg (u.selected.map Prod.fst) u.prices t).2).map Prod.fst) ↔
        (u.prices p.symA - (tp.model_intercept + tp.model_slope * u.prices p.symB) >
            tp.mean_error - cfg.closeSize * tp.epsilon ∨
          u.prices p.symA - (tp.model_intercept + tp.model_slope * u.prices p.symB) <
            tp.mean_error - cfg.stopLossSize * tp.epsilon))) ∧
    (tp.ticket_a_qty < 0 →
      (p ∉ (((closePhase cfg (u.selected.map Prod.fst) u.prices t).2).map Prod.fst) ↔
        (u.prices p.symA - (tp.model_intercept + tp.model_slope * u.prices p.symB) <
            tp.mean_error + cfg.closeSize * tp.epsilon ∨
          u.prices p.symA - (tp.model_intercept + tp.model_slope * u.prices p.symB) >
            tp.mean_error + cfg.stopLossSize * tp.epsilon))) ∧
    (p ∉ (((closePhase cfg (u.selected.map Prod.fst) u.prices t).2).map Prod.fst) →
      (p.symA, -tp.ticket_a_qty) ∈ (closePhase cfg (u.selected.map Prod.fst) u.prices t).1 ∧
      (p.symB, -tp.ticket_b_qty) ∈ (closePhase cfg (u.selected.map Prod.fst) u.prices t).1) ∧
    (∀ sel' : List (TPair × LiveStats),
      sel'.map Prod.fst = u.selected.map Prod.fst →
      closePhase cfg (sel'.map Prod.fst) u.prices t =
        closePhase cfg (u.selected.map Prod.fst) u.prices t) := by
  have hkey := mem_closePhase_iff cfg (u.selected.map Prod.fst) u.prices hnd hmem
  have hkeep := pairCloseStep_keep_iff cfg (u.selected.map Prod.fst) u.prices
    p tp hsel
  refine ⟨?_, ?_, ?_, ?_⟩
  · intro hqa
    have h2 : ¬ tp.ticket_a_qty < 0 := lt_asymm hqa
    constructor
    · intro hnotin
      by_contra hC
      exact hnotin (hkey.mpr (hkeep.mpr ⟨fun hc => hC hc.2, fun hc => h2 hc.1⟩))
    · intro hC hin
      exact (hkeep.mp (hkey.mp hin)).1 ⟨hqa, hC⟩
  · intro hqa
    have h1 : ¬ tp.ticket_a_qty > 0 := lt_asymm hqa
    constructor
    · intro hnotin
      by_contra hC
      exact hnotin (hkey.mpr (hkeep.mpr ⟨fun hc => h1 hc.1, fun hc => hC hc.2⟩))
    · intro hC hin
      exact (hkeep.mp (hkey.mp hin)).2 ⟨hqa, hC⟩
  · intro hnotin
    have hne : (pairCloseStep cfg (u.selected.map Prod.fst) u.prices (p, tp)).2 ≠
        some (p, tp) := fun h => hnotin (hkey.mpr h)
    rcases pairCloseStep_cases cfg (u.selected.map Prod.fst) u.prices (p, tp)
      with h | h
    · exact absurd (by rw [h]) hne
    · exact ⟨pairCloseStep_orders_sub cfg _ u.prices hmem (by rw [h]; simp),
        pairCloseStep_orders_sub cfg _ u.prices hmem (by rw [h]; simp)⟩
  · intro sel' hsel'
    rw [hsel']

/-- Witness for `exit_uses_frozen_snapshot` at a concrete input: a long
position with frozen bands `mean_error = 0`, `epsilon = 1` is closed when the
current error `0` has reverted above `mean_error - closeSize·epsilon`. -/
theorem exit_uses_frozen_snapshot_witness :
    (⟨0, 1, 2⟩ : TPair) ∉ (((closePhase ⟨232/100, 1/2, 6, 1, 10⟩ [⟨0, 1, 2⟩]
        (fun _ => 0) [(⟨0, 1, 2⟩, ⟨1, -1, 0, 0, 0, 1⟩)]).2).map Prod.fst) :=
  ((exit_uses_frozen_snapshot ⟨232/100, 1/2, 6, 1, 10⟩
      ⟨[(⟨0, 1, 2⟩, ⟨0, 0, 0, 1⟩)], (fun _ => 0), (fun _ f => f), 0⟩
      [(⟨0, 1, 2⟩, ⟨1, -1, 0, 0, 0, 1⟩)] ⟨0, 1, 2⟩ ⟨1, -1, 0, 0, 0, 1⟩
      (by simp) (by simp) (by simp)).1 (by norm_num)).mpr (Or.inl (by norm_num))

/-- The key of a map entry popped by the closing loop is absent from the kept
map, and still absent after the whole update when the pair is not selected. -/
theorem closePhase_not_mem_of_pop (cfg : Cfg) (selIds : List TPair)
    (prices : Nat → ℚ) {t : List (TPair × TradingPair)} {p : TPair}
    {tp : TradingPair} (hmem : (p, tp) ∈ t) (hnd : (t.map Prod.fst).Nodup)
    (hpop : (pairCloseStep cfg selIds prices (p, tp)).2 = none) :
    p ∉ (((closePhase cfg selIds prices t).2).map Prod.fst) := by
  intro hin
  rw [mem_closePhase_iff cfg selIds prices hnd hmem, hpop] at hin
  exact Option.noConfusion hin

/-- Claim C4: a pair holding an open position but no longer selected is
force-closed on the update: both legs' closing orders are issued, its map
entry (unique, by nodup keys) is destroyed, the decision ignores prices and
the frozen statistics entirely, and on a pair that is already flat the rule
is a no-op (the pair stays flat and no new position appears). -/
theorem forced_close_rule (cfg : Cfg) (u : UpdIn)
    (t : List (TPair × TradingPair)) (p : TPair) (tp : TradingPair)
    (hmem : (p, tp) ∈ t) (hnd : (t.map Prod.fst).Nodup)
    (hout : p ∉ u.selected.map Prod.fst) :
    ((p.symA, -tp.ticket_a_qty) ∈ (onData cfg u t).1 ∧
      (p.symB, -tp.ticket_b_qty) ∈ (onData cfg u t).1) ∧
    p ∉ (((onData cfg u t).2).map Prod.fst) ∧
    (∀ prices : Nat → ℚ,
      pairCloseStep cfg (u.selected.map Prod.fst) prices (p, tp) =
        ([(p.symA, -tp.ticket_a_qty), (p.symB, -tp.ticket_b_qty)], none)) ∧
    (t.map Prod.fst).count p = 1 ∧
    (∀ t' : List (TPair × TradingPair), p ∉ t'.map Prod.fst →
      p ∉ (((onData cfg u t').2).map Prod.fst)) := by
  have hstep : ∀ prices : Nat → ℚ,
      pairCloseStep cfg (u.selected.map Prod.fst) prices (p, tp) =
        ([(p.symA, -tp.ticket_a_qty), (p.symB, -tp.ticket_b_qty)], none) := by
    intro prices
    simp only [pairCloseStep]
    rw [if_pos hout]
  refine ⟨⟨?_, ?_⟩, ?_, hstep, ?_, ?_⟩
  · refine List.mem_append_left _ (pairCloseStep_orders_sub cfg _ u.prices hmem ?_)
    rw [hstep u.prices]
    simp
  · refine List.mem_append_left _ (pairCloseStep_orders_sub cfg _ u.prices hmem ?_)
    rw [hstep u.prices]
    simp
  · simp only [onData]
    refine entryLoop_fresh_keys cfg u.prices u.calcQty u.lastSym hout ?_
    exact closePhase_not_mem_of_pop cfg _ u.prices hmem hnd (by rw [hstep u.prices])
  · exact List.count_eq_one_of_mem hnd (List.mem_map_of_mem Prod.fst hmem)
  · intro t' ht'
    exact onData_absent_keys cfg u hout ht'

/-- Witness for `forced_close_rule` at a concrete input: a pair holding an
open position while the selected set is empty has no position after the
update. -/
theorem forced_close_rule_witness :
    (⟨0, 1, 2⟩ : TPair) ∉ (((onData ⟨232/100, 1/2, 6, 1, 10⟩
        ⟨[], (fun _ => 0), (fun _ f => f), 0⟩
        [(⟨0, 1, 2⟩, ⟨1, -1, 0, 0, 0, 1⟩)]).2).map Prod.fst) :=
  (forced_close_rule ⟨232/100, 1/2, 6, 1, 10⟩ ⟨[], (fun _ => 0), (fun _ f => f), 0⟩
      [(⟨0, 1, 2⟩, ⟨1, -1, 0, 0, 0, 1⟩)] ⟨0, 1, 2⟩ ⟨1, -1, 0, 0, 0, 1⟩
      (by simp) (by simp) (by simp)).2.1

/-- Claim C3: for a selected pair with no open position, entry is decided by
the live model: with `error = priceA - (intercept + slope * priceB)` over the
live statistics, the pair obtains a position iff the error leaves the
`openSize` band, a low error opens long-spread with `qty_a` on leg A and
`-qty_a`-shaped `qty_b` on leg B, and a high error opens short-spread with
the leg signs swapped, each entry also freezing the live statistics into the
stored `TradingPair`. -/
theorem entry_uses_live_model (cfg : Cfg) (prices : Nat → ℚ)
    (calcQty : Nat → ℚ → ℚ) (lastSym : Nat) (sel : List (TPair × LiveStats))
    (t : List (TPair × TradingPair)) (p : TPair) (ls : LiveStats)
    (hnd : (sel.map Prod.fst).Nodup) (hmem : (p, ls) ∈ sel)
    (habs : p ∉ t.map Prod.fst) (heps : 0 ≤ cfg.openSize * ls.epsilon) :
    (p ∈ ((entryLoop cfg prices calcQty lastSym sel t).2).map Prod.fst ↔
      (prices p.symA - (ls.intercept + ls.slope * prices p.symB) <
          ls.mean_error - cfg.openSize * ls.epsilon ∨
        prices p.symA - (ls.intercept + ls.slope * prices p.symB) >
          ls.mean_error + cfg.openSize * ls.epsilon)) ∧
    (prices p.symA - (ls.intercept + ls.slope * prices p.symB) <
        ls.mean_error - cfg.openSize * ls.epsilon →
      (p, (⟨calcQty lastSym (entryQty cfg), calcQty lastSym (-entryQty cfg),
            ls.intercept, ls.slope, ls.mean_error, ls.epsilon⟩ : TradingPair)) ∈
          (entryLoop cfg prices calcQty lastSym sel t).2 ∧
        (p.symA, calcQty lastSym (entryQty cfg)) ∈
          (entryLoop cfg prices calcQty lastSym sel t).1 ∧
        (p.symB, calcQty lastSym (-entryQty cfg)) ∈
          (entryLoop cfg prices calcQty lastSym sel t).1) ∧
    (prices p.symA - (ls.intercept + ls.slope * prices p.symB) >
        ls.mean_error + cfg.openSize * ls.epsilon →
      (p, (⟨calcQty lastSym (-entryQty cfg), calcQty lastSym (entryQty cfg),
            ls.intercept, ls.slope, ls.mean_error, ls.epsilon⟩ : TradingPair)) ∈
          (entryLoop cfg prices calcQty lastSym sel t).2 ∧
        (p.symA, calcQty lastSym (-entryQty cfg)) ∈
          (entryLoop cfg prices calcQty lastSym sel t).1 ∧
        (p.symB, calcQty lastSym (entryQty cfg)) ∈
          (entryLoop cfg prices calcQty lastSym sel t).1) := by
  have hlohi : ls.mean_error - cfg.openSize * ls.epsilon ≤
      ls.mean_error + cfg.openSize * ls.epsilon := by linarith
  have hlong : prices p.symA - (ls.intercept + ls.slope * prices p.symB) <
      ls.mean_error - cfg.openSize * ls.epsilon →
      (p, (⟨calcQty lastSym (entryQty cfg), calcQty lastSym (-entryQty cfg),
          ls.intercept, ls.slope, ls.mean_error, ls.epsilon⟩ : TradingPair)) ∈
        (entryLoop cfg prices calcQty lastSym sel t).2 ∧
      (p.symA, calcQty lastSym (entryQty cfg)) ∈
        (entryLoop cfg prices calcQty lastSym sel t).1 ∧
      (p.symB, calcQty lastSym (-entryQty cfg)) ∈
        (entryLoop cfg prices calcQty lastSym sel t).1 := by
    intro hC
    exact entryLoop_enter cfg prices calcQty lastSym hnd hmem habs
      (entryDecision_long hC)
  have hshort : prices p.symA - (ls.intercept + ls.slope * prices p.symB) >
      ls.mean_error + cfg.openSize * ls.epsilon →
      (p, (⟨calcQty lastSym (-entryQty cfg), calcQty lastSym (entryQty cfg),
          ls.intercept, ls.slope, ls.mean_error, ls.epsilon⟩ : TradingPair)) ∈
        (entryLoop cfg prices calcQty lastSym sel t).2 ∧
      (p.symA, calcQty lastSym (-entryQty cfg)) ∈
        (entryLoop cfg prices calcQty lastSym sel t).1 ∧
      (p.symB, calcQty lastSym (entryQty cfg)) ∈
        (entryLoop cfg prices calcQty lastSym sel t).1 := by
    intro hC
    refine entryLoop_enter cfg prices calcQty lastSym hnd hmem habs
      (entryDecision_short ?_ hC)
    intro h
    exact absurd (h.trans_le hlohi) (lt_asymm hC)
  refine ⟨⟨?_, ?_⟩, hlong, hshort⟩
  · intro hin
    by_contra hC
    push_neg at hC
    exact entryLoop_no_entry cfg prices calcQty lastSym hnd hmem habs
      (entryDecision_none (not_lt.mpr hC.1) (not_lt.mpr hC.2)) hin
  · rintro (hC | hC)
    · exact List.mem_map_of_mem Prod.fst (hlong hC).1
    · exact List.mem_map_of_mem Prod.fst (hshort hC).1

/-- Witness for `entry_uses_live_model`: Scenario A of the specification.
With `mean_error = 0`, `epsilon = 1`, `openSize = 2.32`, the error sequence
`[0, 1, 2.5]` on a flat pair produces no trade on the first two updates and
the third update opens short-spread (sell A, buy B, with quantities here
computed by the identity quantity calculator). -/
theorem entry_uses_live_model_witness :
    run ⟨232/100, 1/2, 6, 1, 10⟩ initTrading
        [⟨[(⟨0, 1, 2⟩, ⟨0, 0, 0, 1⟩)], (fun _ => 0), (fun _ f => f), 0⟩,
         ⟨[(⟨0, 1, 2⟩, ⟨0, 0, 0, 1⟩)], (fun _ => 1), (fun _ f => f), 0⟩] = [] ∧
    (⟨0, 1, 2⟩ : TPair) ∈ ((entryLoop ⟨232/100, 1/2, 6, 1, 10⟩ (fun _ => 5/2)
        (fun _ f => f) 0 [(⟨0, 1, 2⟩, ⟨0, 0, 0, 1⟩)] []).2).map Prod.fst ∧
    run ⟨232/100, 1/2, 6, 1, 10⟩ initTrading
        [⟨[(⟨0, 1, 2⟩, ⟨0, 0, 0, 1⟩)], (fun _ => 0), (fun _ f => f), 0⟩,
         ⟨[(⟨0, 1, 2⟩, ⟨0, 0, 0, 1⟩)], (fun _ => 1), (fun _ f => f), 0⟩,
         ⟨[(⟨0, 1, 2⟩, ⟨0, 0, 0, 1⟩)], (fun _ => 5/2), (fun _ f => f), 0⟩] =
      [(⟨0, 1, 2⟩, ⟨-(1/20), 1/20, 0, 0, 0, 1⟩)] :=
  ⟨by norm_num [run, initTrading, onData, closePhase, pairCloseStep, entryLoop,
      entryDecision, entryQty, List.flatMap],
   (entry_uses_live_model ⟨232/100, 1/2, 6, 1, 10⟩ (fun _ => 5/2) (fun _ f => f)
      0 [(⟨0, 1, 2⟩, ⟨0, 0, 0, 1⟩)] [] ⟨0, 1, 2⟩ ⟨0, 0, 0, 1⟩
      (by simp) (by simp) (by simp) (by norm_num)).1.mpr (Or.inr (by norm_num)),
   by norm_num [run, initTrading, onData, closePhase, pairCloseStep, entryLoop,
      entryDecision, entryQty, List.flatMap]⟩

/-- Claim C7 (amended): within one update a position is closed at most once —
each `pairCloseStep` either keeps the entry or pops it issuing one pair of
closing orders, never two closes — and, when the frozen snapshot still equals
the live model and `0 < closeSize < openSize`: an error back inside the close
band closes the position exactly once with no re-entry on that update, and an
error breaching the stop band pops the position (exactly one close of that
position in the closing loop).  The original claim's further conjunct — that a
pair never both closes and opens within one update — is refuted separately. -/
theorem hysteresis_no_double_close (cfg : Cfg) (u : UpdIn)
    (t : List (TPair × TradingPair)) (p : TPair) (tp : TradingPair)
    (hmem : (p, tp) ∈ t) (hnd : (t.map Prod.fst).Nodup)
    (hselnd : (u.selected.map Prod.fst).Nodup)
    (hfl : (p, (⟨tp.model_intercept, tp.model_slope, tp.mean_error,
        tp.epsilon⟩ : LiveStats)) ∈ u.selected)
    (hco : cfg.closeSize < cfg.openSize) (hcpos : 0 < cfg.closeSize) :
    (∀ (selIds : List TPair) (prices : Nat → ℚ) (e : TPair × TradingPair),
      pairCloseStep cfg selIds prices e = ([], some e) ∨
      pairCloseStep cfg selIds prices e =
        ([(e.1.symA, -e.2.ticket_a_qty), (e.1.symB, -e.2.ticket_b_qty)], none)) ∧
    (0 < tp.ticket_a_qty →
      tp.mean_error - cfg.closeSize * tp.epsilon <
        u.prices p.symA - (tp.model_intercept + tp.model_slope * u.prices p.symB) →
      u.prices p.symA - (tp.model_intercept + tp.model_slope * u.prices p.symB) <
        tp.mean_error + cfg.closeSize * tp.epsilon →
      p ∉ (((onData cfg u t).2).map Prod.fst) ∧
        (p.symA, -tp.ticket_a_qty) ∈ (onData cfg u t).1 ∧
        (p.symB, -tp.ticket_b_qty) ∈ (onData cfg u t).1) ∧
    (tp.ticket_a_qty < 0 →
      tp.mean_error - cfg.closeSize * tp.epsilon <
        u.prices p.symA - (tp.model_intercept + tp.model_slope * u.prices p.symB) →
      u.prices p.symA - (tp.model_intercept + tp.model_slope * u.prices p.symB) <
        tp.mean_error + cfg.closeSize * tp.epsilon →
      p ∉ (((onData cfg u t).2).map Prod.fst) ∧
        (p.symA, -tp.ticket_a_qty) ∈ (onData cfg u t).1 ∧
        (p.symB, -tp.ticket_b_qty) ∈ (onData cfg u t).1) ∧
    (0 < tp.ticket_a_qty →
      u.prices p.symA - (tp.model_intercept + tp.model_slope * u.prices p.symB) <
        tp.mean_error - cfg.stopLossSize * tp.epsilon →
      p ∉ (((closePhase cfg (u.selected.map Prod.fst) u.prices t).2).map Prod.fst)) ∧
    (tp.ticket_a_qty < 0 →
      u.prices p.symA - (tp.model_intercept + tp.model_slope * u.prices p.symB) >
        tp.mean_error + cfg.stopLossSize * tp.epsilon →
      p ∉ (((closePhase cfg (u.selected.map Prod.fst) u.prices t).2).map Prod.fst)) := by
  have hsel : p ∈ u.selected.map Prod.fst := List.mem_map_of_mem Prod.fst hfl
  have hs : ¬ p ∉ u.selected.map Prod.fst := not_not_intro hsel
  have hnoentry : tp.mean_error - cfg.closeSize * tp.epsilon <
        u.prices p.symA - (tp.model_intercept + tp.model_slope * u.prices p.symB) →
      u.prices p.symA - (tp.model_intercept + tp.model_slope * u.prices p.symB) <
        tp.mean_error + cfg.closeSize * tp.epsilon →
      ∀ t' : List (TPair × TradingPair), p ∉ t'.map Prod.fst →
        p ∉ ((entryLoop cfg u.prices u.calcQty u.lastSym u.selected t').2).map
          Prod.fst := by
    intro h1 h2 t' ht'
    have hce : 0 < cfg.closeSize * tp.epsilon := by linarith
    have heps : 0 < tp.epsilon := by
      by_contra h
      push_neg at h
      have := mul_nonpos_of_nonneg_of_nonpos hcpos.le h
      linarith
    have hoeps : cfg.closeSize * tp.epsilon < cfg.openSize * tp.epsilon :=
      mul_lt_mul_of_pos_right hco heps
    refine entryLoop_no_entry cfg u.prices u.calcQty u.lastSym hselnd hfl ht'
      (entryDecision_none ?_ ?_)
    · show ¬ u.prices p.symA - (tp.model_intercept + tp.model_slope * u.prices p.symB) <
          tp.mean_error - cfg.openSize * tp.epsilon
      push_neg
      linarith
    · show ¬ u.prices p.symA - (tp.model_intercept + tp.model_slope * u.prices p.symB) >
          tp.mean_error + cfg.openSize * tp.epsilon
      push_neg
      linarith
  refine ⟨pairCloseStep_cases cfg, ?_, ?_, ?_, ?_⟩
  · intro hqa h1 h2
    have hstep : pairCloseStep cfg (u.selected.map Prod.fst) u.prices (p, tp) =
        ([(p.symA, -tp.ticket_a_qty), (p.symB, -tp.ticket_b_qty)], none) := by
      simp only [pairCloseStep]
      rw [if_neg hs, if_pos ⟨hqa, Or.inl h1⟩]
    refine ⟨?_, ?_, ?_⟩
    · simp only [onData]
      exact hnoentry h1 h2 _
        (closePhase_not_mem_of_pop cfg _ u.prices hmem hnd (by rw [hstep]))
    · simp only [onData]
      exact List.mem_append_left _
        (pairCloseStep_orders_sub cfg _ u.prices hmem (by rw [hstep]; simp))
    · simp only [onData]
      exact List.mem_append_left _
        (pairCloseStep_orders_sub cfg _ u.prices hmem (by rw [hstep]; simp))
  · intro hqa h1 h2
    have hstep : pairCloseStep cfg (u.selected.map Prod.fst) u.prices (p, tp) =
        ([(p.symA, -tp.ticket_a_qty), (p.symB, -tp.ticket_b_qty)], none) := by
      simp only [pairCloseStep]
      rw [if_neg hs, if_neg (fun hc => absurd hc.1 (lt_asymm hqa)),
        if_pos ⟨hqa, Or.inl h2⟩]
    refine ⟨?_, ?_, ?_⟩
    · simp only [onData]
      exact hnoentry h1 h2 _
        (closePhase_not_mem_of_pop cfg _ u.prices hmem hnd (by rw [hstep]))
    · simp only [onData]
      exact List.mem_append_left _
        (pairCloseStep_orders_sub cfg _ u.prices hmem (by rw [hstep]; simp))
    · simp only [onData]
      exact List.mem_append_left _
        (pairCloseStep_orders_sub cfg _ u.prices hmem (by rw [hstep]; simp))
  · intro hqa hstop
    refine closePhase_not_mem_of_pop cfg _ u.prices hmem hnd ?_
    simp only [pairCloseStep]
    rw [if_neg hs, if_pos ⟨hqa, Or.inr hstop⟩]
  · intro hqa hstop
    refine closePhase_not_mem_of_pop cfg _ u.prices hmem hnd ?_
    simp only [pairCloseStep]
    rw [if_neg hs, if_neg (fun hc => absurd hc.1 (lt_asymm hqa)),
      if_pos ⟨hqa, Or.inr hstop⟩]

/-- Witness for `hysteresis_no_double_close` at a concrete input: a long
position whose error `-7` breaches the stop band `-6` is popped by the closing
loop. -/
theorem hysteresis_no_double_close_witness :
    (⟨0, 1, 2⟩ : TPair) ∉ (((closePhase ⟨232/100, 1/2, 6, 1, 10⟩ [⟨0, 1, 2⟩]
        (fun _ => -7) [(⟨0, 1, 2⟩, ⟨1, -1, 0, 0, 0, 1⟩)]).2).map Prod.fst) :=
  (hysteresis_no_double_close ⟨232/100, 1/2, 6, 1, 10⟩
      ⟨[(⟨0, 1, 2⟩, ⟨0, 0, 0, 1⟩)], (fun _ => -7), (fun _ f => f), 0⟩
      [(⟨0, 1, 2⟩, ⟨1, -1, 0, 0, 0, 1⟩)] ⟨0, 1, 2⟩ ⟨1, -1, 0, 0, 0, 1⟩
      (by simp) (by simp) (by simp) (by simp) (by norm_num)
      (by norm_num)).2.2.2.1 (by norm_num) (by norm_num)

/-- Counterexample to claim C7's final conjunct: with the frozen snapshot
equal to the live model (intercept 8, slope 0, `mean_error` 0, `epsilon` 1)
and price A equal to 1, the error `-7` breaches the long stop-loss band `-6`;
the update closes the position (orders `(1, -1)`, `(2, 1)`) and immediately
opens a new long-spread position for the same pair (orders `(1, 1/20)`,
`(2, -1/20)` and a fresh `TradingPair`), so one market update both closes a
position and opens a new one. -/
theorem close_and_reopen_counterexample :
    (onData ⟨232/100, 1/2, 6, 1, 10⟩
        ⟨[(⟨0, 1, 2⟩, ⟨8, 0, 0, 1⟩)], (fun s => if s = 1 then 1 else 5),
          (fun _ f => f), 7⟩
        [(⟨0, 1, 2⟩, ⟨1, -1, 8, 0, 0, 1⟩)]).1 =
      [(1, -1), (2, 1), (1, 1/20), (2, -(1/20))] ∧
    (onData ⟨232/100, 1/2, 6, 1, 10⟩
        ⟨[(⟨0, 1, 2⟩, ⟨8, 0, 0, 1⟩)], (fun s => if s = 1 then 1 else 5),
          (fun _ f => f), 7⟩
        [(⟨0, 1, 2⟩, ⟨1, -1, 8, 0, 0, 1⟩)]).2 =
      [(⟨0, 1, 2⟩, ⟨1/20, -(1/20), 8, 0, 0, 1⟩)] ∧
    (⟨1/20, -(1/20), 8, 0, 0, 1⟩ : TradingPair) ≠ ⟨1, -1, 8, 0, 0, 1⟩ := by
  refine ⟨?_, ?_, ?_⟩ <;>
    norm_num [onData, closePhase, pairCloseStep, entryLoop, entryDecision,
      entryQty, List.flatMap, TradingPair.mk.injEq]

/-- Claim C5 evaluation: `epsilon` is always nonnegative (`np.std` is a square
root, and `Pairs.__init__` sets it to 0), but the entry logic has no
`epsilon == 0` guard: a selected pair with live `epsilon = 0` (stats
intercept 2, slope 0, `mean_error` 0) and price A equal to 1 has error
`-1 < mean_error - openSize·0 = 0`, so the update opens a long-spread
position for it, contradicting the claim that such a pair never opens. -/
theorem entry_fires_at_zero_epsilon :
    (∀ l : List ℚ, 0 ≤ npStd l) ∧
    pairsInit.epsilon = 0 ∧
    ((⟨2, 0, 0, 0⟩ : LiveStats).epsilon = 0 ∧
      (onData ⟨232/100, 1/2, 6, 1, 10⟩
          ⟨[(⟨0, 1, 2⟩, ⟨2, 0, 0, 0⟩)], (fun _ => 1), (fun _ f => f), 0⟩ []).2 =
        [(⟨0, 1, 2⟩, ⟨1/20, -(1/20), 2, 0, 0, 0⟩)]) := by
  refine ⟨fun l => Real.sqrt_nonneg _, rfl, rfl, ?_⟩
  norm_num [onData, closePhase, pairCloseStep, entryLoop, entryDecision,
    entryQty, List.flatMap]

/-- Claim C6 evaluation: on entry, the source sizes both legs by
`calculate_order_quantity(symbol, leverage / pair_num / 2)` where `symbol` is
the loop variable leaked from the bar-ingestion loop and `pair_num` is the
fixed cap.  With a single active pair `⟨0, 1, 2⟩`, leaked symbol 99 and a
quantity calculator returning `(symbol + 1) * fraction`, both leg orders are
sized `±(99 + 1) · (1/10/2) = ±5`, while sizing each leg against its own
instrument with the active-set size 1 as the denominator would give leg A
quantity `(1 + 1) · (1/1/2) = 1 ≠ 5`. -/
theorem entry_sizing_uses_leaked_symbol :
    (onData ⟨232/100, 1/2, 6, 1, 10⟩
        ⟨[(⟨0, 1, 2⟩, ⟨0, 0, 0, 1⟩)], (fun _ => -3),
          (fun s f => ((s : ℚ) + 1) * f), 99⟩ []).1 = [(1, 5), (2, -5)] ∧
    entryQty ⟨232/100, 1/2, 6, 1, 10⟩ = 1/20 ∧
    ((1 : ℚ) + 1) * ((1 : ℚ)/1/2) ≠ 5 := by
  refine ⟨?_, ?_, ?_⟩ <;>
    norm_num [onData, closePhase, pairCloseStep, entryLoop, entryDecision,
      entryQty, List.flatMap]

/-- Every selected pair passed the `_generate_pairs` filter. -/
theorem mem_generatePairs_sub {minCorr : ℚ} {pairNum : Nat} {l : List Cand}
    {c : Cand} (h : c ∈ generatePairs minCorr pairNum l) :
    c ∈ l.filter (candKeep minCorr) := by
  simp only [generatePairs] at h
  by_cases hemp : l.filter (candKeep minCorr) = []
  · rw [if_pos hemp] at h
    exact absurd h (List.not_mem_nil c)
  · rw [if_neg hemp] at h
    have h1 := List.mem_mergeSort.mp h
    by_cases hcap : pairNum <
        ((l.filter (candKeep minCorr)).mergeSort
          fun x y => decide (y.correlation ≤ x.correlation)).length
    · rw [if_pos hcap] at h1
      exact List.mem_mergeSort.mp (List.mem_of_mem_take h1)
    · rw [if_neg hcap] at h1
      exact List.mem_mergeSort.mp h1

/-- The selected list never exceeds the `_pair_num` cap. -/
theorem generatePairs_length_le (minCorr : ℚ) (pairNum : Nat) (l : List Cand) :
    (generatePairs minCorr pairNum l).length ≤ pairNum := by
  simp only [generatePairs]
  by_cases hemp : l.filter (candKeep minCorr) = []
  · rw [if_pos hemp]
    exact Nat.zero_le pairNum
  · rw [if_neg hemp]
    rw [(List.mergeSort_perm _ _).length_eq]
    by_cases hcap : pairNum <
        ((l.filter (candKeep minCorr)).mergeSort
          fun x y => decide (y.correlation ≤ x.correlation)).length
    · rw [if_pos hcap, List.length_take]
      exact min_le_left _ _
    · rw [if_neg hcap]
      exact Nat.not_lt.mp hcap

/-- When the cap does not bind, selection membership is exactly filter
membership. -/
theorem mem_generatePairs_of_nocap {minCorr : ℚ} {pairNum : Nat} {l : List Cand}
    (hlen : (l.filter (candKeep minCorr)).length ≤ pairNum) (c : Cand) :
    c ∈ generatePairs minCorr pairNum l ↔ c ∈ l.filter (candKeep minCorr) := by
  simp only [generatePairs]
  by_cases hemp : l.filter (candKeep minCorr) = []
  · rw [if_pos hemp, hemp]
  · rw [if_neg hemp]
    have hcap : ¬ pairNum <
        ((l.filter (candKeep minCorr)).mergeSort
          fun x y => decide (y.correlation ≤ x.correlation)).length := by
      rw [(List.mergeSort_perm _ _).length_eq]
      exact Nat.not_lt.mpr hlen
    rw [if_neg hcap, List.mem_mergeSort, List.mem_mergeSort]

/-- A filtered candidate excluded by the cap has correlation at most that of
every kept candidate: the cap keeps the top of the correlation order. -/
theorem generatePairs_topcap {minCorr : ℚ} {pairNum : Nat} {l : List Cand}
    {c : Cand} (hc : c ∈ l.filter (candKeep minCorr))
    (hout : c ∉ generatePairs minCorr pairNum l)
    {d : Cand} (hd : d ∈ generatePairs minCorr pairNum l) :
    c.correlation ≤ d.correlation := by
  simp only [generatePairs] at hout hd
  by_cases hemp : l.filter (candKeep minCorr) = []
  · rw [if_pos hemp] at hd
    exact absurd hd (List.not_mem_nil d)
  · rw [if_neg hemp] at hout hd
    by_cases hcap : pairNum <
        ((l.filter (candKeep minCorr)).mergeSort
          fun x y => decide (y.correlation ≤ x.correlation)).length
    · rw [if_pos hcap] at hout hd
      have hdtake := List.mem_mergeSort.mp hd
      have hcsorted : c ∈ (l.filter (candKeep minCorr)).mergeSort
          fun x y => decide (y.correlation ≤ x.correlation) :=
        List.mem_mergeSort.mpr hc
      have hcdrop : c ∈ ((l.filter (candKeep minCorr)).mergeSort
          fun x y => decide (y.correlation ≤ x.correlation)).drop pairNum := by
        have hnotake : c ∉ ((l.filter (candKeep minCorr)).mergeSort
            fun x y => decide (y.correlation ≤ x.correlation)).take pairNum :=
          fun h => hout (List.mem_mergeSort.mpr h)
        have hsplit := hcsorted
        rw [← List.take_append_drop pairNum
          ((l.filter (candKeep minCorr)).mergeSort
            fun x y => decide (y.correlation ≤ x.correlation))] at hsplit
        rcases List.mem_append.mp hsplit with h | h
        · exact absurd h hnotake
        · exact h
      have hsorted : List.Pairwise
          (fun a b => (fun x y => decide (y.correlation ≤ x.correlation)) a b = true)
          ((l.filter (candKeep minCorr)).mergeSort
            fun x y => decide (y.correlation ≤ x.correlation)) := by
        refine List.sorted_mergeSort ?_ ?_ _
        · intro a b e h1 h2
          simp only [decide_eq_true_eq] at h1 h2 ⊢
          exact le_trans h2 h1
        · intro a b
          simp only [Bool.or_eq_true, decide_eq_true_eq]
          exact le_total b.correlation a.correlation
      rw [← List.take_append_drop pairNum
        ((l.filter (candKeep minCorr)).mergeSort
          fun x y => decide (y.correlation ≤ x.correlation))] at hsorted
      have hcross := (List.pairwise_append.mp hsorted).2.2
      have := hcross d hdtake c hcdrop
      simpa using this
    · rw [if_neg hcap] at hout
      exact absurd (List.mem_mergeSort.mpr (List.mem_mergeSort.mpr hc)) hout

/-- Claim C8: a candidate is selected by `_generate_pairs` only if its
correlation is not below the threshold, its cointegration test succeeds
(p-value below 0.05) and its residual ADF p-value is below 0.05; the output
never exceeds the cap; when the cap does not bind, membership is exactly this
test; and a filtered candidate excluded by the cap has correlation at most
that of every kept one (top-N by correlation). -/
theorem selected_iff_tests_pass (minCorr : ℚ) (pairNum : Nat) (l : List Cand) :
    (∀ c ∈ generatePairs minCorr pairNum l,
      c ∈ l ∧ ¬ c.correlation < minCorr ∧ c.coint_p < 0.05 ∧
        c.stationary_p < 0.05) ∧
    (generatePairs minCorr pairNum l).length ≤ pairNum ∧
    ((l.filter (candKeep minCorr)).length ≤ pairNum →
      ∀ c : Cand, c ∈ generatePairs minCorr pairNum l ↔
        (c ∈ l ∧ ¬ c.correlation < minCorr ∧ c.coint_p < 0.05 ∧
          c.stationary_p < 0.05)) ∧
    (∀ c ∈ l.filter (candKeep minCorr), c ∉ generatePairs minCorr pairNum l →
      ∀ d ∈ generatePairs minCorr pairNum l, c.correlation ≤ d.correlation) := by
  have hkeep : ∀ c : Cand, c ∈ l.filter (candKeep minCorr) ↔
      (c ∈ l ∧ ¬ c.correlation < minCorr ∧ c.coint_p < 0.05 ∧
        c.stationary_p < 0.05) := by
    intro c
    simp [List.mem_filter, candKeep]
  refine ⟨?_, generatePairs_length_le minCorr pairNum l, ?_, ?_⟩
  · intro c hc
    exact (hkeep c).mp (mem_generatePairs_sub hc)
  · intro hlen c
    rw [mem_generatePairs_of_nocap hlen c]
    exact hkeep c
  · intro c hc hout d hd
    exact generatePairs_topcap hc hout hd

/-- Witness for `selected_iff_tests_pass`: Scenario D of the specification.
A candidate with correlation 0.95 (above the 0.9 threshold) but cointegration
p-value 0.5 is excluded from selection. -/
theorem selected_iff_tests_pass_witness :
    (⟨⟨0, 1, 2⟩, 95/100, 1/2, 1/100⟩ : Cand) ∉
      generatePairs (9/10) 10 [⟨⟨0, 1, 2⟩, 95/100, 1/2, 1/100⟩] :=
  fun h => absurd
    (((selected_iff_tests_pass (9/10) 10
        [⟨⟨0, 1, 2⟩, 95/100, 1/2, 1/100⟩]).2.2.1
      (by norm_num [candKeep]) _).mp h)
    (by norm_num)

/-- Claim C9 (amended): `cointegration_test` returns false with the state
fully unchanged when the cointegration p-value is at least 0.05; an exception
in `coint` or in the regression fit propagates with the state unchanged; an
exception in the residual ADF test propagates with `self.model` already
overwritten (while `stationary_p`, `mean_error`, `epsilon` keep their old
values); and it returns true only when the full pipeline ran, in which case
`stationary_p`, `mean_error` and `epsilon` are set from the residuals. -/
theorem cointegration_test_spec :
    (∀ (p : ℚ) (olsRes : Except Unit OlsFit) (adfRes : Except Unit ℚ)
        (s : PairsModel), (0.05 : ℚ) ≤ p →
      cointegration_test (.ok p) olsRes adfRes s = (.ok false, s)) ∧
    (∀ (e : Unit) (olsRes : Except Unit OlsFit) (adfRes : Except Unit ℚ)
        (s : PairsModel),
      cointegration_test (.error e) olsRes adfRes s = (.error e, s)) ∧
    (∀ (p : ℚ) (e : Unit) (adfRes : Except Unit ℚ) (s : PairsModel),
      p < 0.05 →
      cointegration_test (.ok p) (.error e) adfRes s = (.error e, s)) ∧
    (∀ (p : ℚ) (fit : OlsFit) (e : Unit) (s : PairsModel), p < 0.05 →
      cointegration_test (.ok p) (.ok fit) (.error e) s =
        (.error e, { s with model := some fit })) ∧
    (∀ (p : ℚ) (fit : OlsFit) (ap : ℚ) (s : PairsModel), p < 0.05 →
      cointegration_test (.ok p) (.ok fit) (.ok ap) s =
        (.ok true, ⟨some fit, some ap, npMean fit.resid, npStd fit.resid⟩)) ∧
    (∀ (cointRes : Except Unit ℚ) (olsRes : Except Unit OlsFit)
        (adfRes : Except Unit ℚ) (s : PairsModel),
      (cointegration_test cointRes olsRes adfRes s).1 = .ok true →
      ∃ (p : ℚ) (fit : OlsFit) (ap : ℚ),
        cointRes = .ok p ∧ p < 0.05 ∧ olsRes = .ok fit ∧ adfRes = .ok ap ∧
          (cointegration_test cointRes olsRes adfRes s).2 =
            ⟨some fit, some ap, npMean fit.resid, npStd fit.resid⟩) := by
  refine ⟨?_, ?_, ?_, ?_, ?_, ?_⟩
  · intro p olsRes adfRes s h
    simp only [cointegration_test]
    rw [if_pos h]
  · intro e olsRes adfRes s
    rfl
  · intro p e adfRes s h
    simp only [cointegration_test]
    rw [if_neg (not_le.mpr h)]
  · intro p fit e s h
    simp only [cointegration_test]
    rw [if_neg (not_le.mpr h)]
  · intro p fit ap s h
    simp only [cointegration_test]
    rw [if_neg (not_le.mpr h)]
  · intro cointRes olsRes adfRes s h
    cases cointRes with
    | error e => exact absurd h (by simp [cointegration_test])
    | ok p =>
      by_cases hp : (0.05 : ℚ) ≤ p
      · refine absurd h ?_
        simp only [cointegration_test]
        rw [if_pos hp]
        simp
      · cases olsRes with
        | error e =>
          refine absurd h ?_
          simp only [cointegration_test]
          rw [if_neg hp]
          simp
        | ok fit =>
          cases adfRes with
          | error e =>
            refine absurd h ?_
            simp only [cointegration_test]
            rw [if_neg hp]
            simp
          | ok ap =>
            refine ⟨p, fit, ap, rfl, not_le.mp hp, rfl, rfl, ?_⟩
            simp only [cointegration_test]
            rw [if_neg hp]

/-- Witness for `cointegration_test_spec`: a cointegration p-value of 0.5
makes the test return false with the initial state unchanged. -/
theorem cointegration_test_spec_witness :
    cointegration_test (.ok (1/2)) (.ok ⟨1, 2, [3]⟩) (.ok 0) pairsInit =
      (.ok false, pairsInit) :=
  cointegration_test_spec.1 (1/2) (.ok ⟨1, 2, [3]⟩) (.ok 0) pairsInit
    (by norm_num)

/-- Counterexample to claim C9 as stated: on numeric instability in the
residual ADF test (cointegration p-value 0.01 accepted, regression fitted,
`adfuller` raising), the error propagates with the candidate's model already
updated from `None` to the fitted regression — the failure is not closed with
respect to the model. -/
theorem adf_failure_updates_model :
    (cointegration_test (.ok (1/100)) (.ok ⟨1, 2, [3]⟩) (.error ())
        pairsInit).1 = .error () ∧
    (cointegration_test (.ok (1/100)) (.ok ⟨1, 2, [3]⟩) (.error ())
        pairsInit).2.model = some ⟨1, 2, [3]⟩ ∧
    pairsInit.model = none := by
  refine ⟨?_, ?_, rfl⟩ <;>
  · simp only [cointegration_test, pairsInit]
    norm_num

/-- The pointwise product sum is symmetric. -/
theorem dot_comm : ∀ xs ys : List ℝ, dot xs ys = dot ys xs := by
  intro xs
  induction xs with
  | nil =>
    intro ys
    cases ys <;> rfl
  | cons x xs ih =>
    intro ys
    cases ys with
    | nil => rfl
    | cons y ys =>
      simp only [dot, List.zip_cons_cons, List.map_cons, List.sum_cons]
      rw [mul_comm x y]
      congr 1
      exact ih ys

/-- Swapping every merged row swaps the two columns fed to `pearson`. -/
theorem pearson_swap (rows : List (ℚ × ℚ)) :
    pearson (rows.map Prod.swap) = pearson rows := by
  have hx : (rows.map Prod.swap).map (fun r : ℚ × ℚ => (r.1 : ℝ)) =
      rows.map (fun r : ℚ × ℚ => (r.2 : ℝ)) := by
    rw [List.map_map]
    rfl
  have hy : (rows.map Prod.swap).map (fun r : ℚ × ℚ => (r.2 : ℝ)) =
      rows.map (fun r : ℚ × ℚ => (r.1 : ℝ)) := by
    rw [List.map_map]
    rfl
  simp only [pearson]
  rw [hx, hy, dot_comm, mul_comm (Real.sqrt _) (Real.sqrt _)]

/-- Reversing the pair reverses each merged row. -/
theorem mergedRows_swap (ra rb : List (Option ℚ)) :
    mergedRows rb ra = (mergedRows ra rb).map Prod.swap := by
  simp only [mergedRows]
  rw [← List.zip_swap ra rb, List.filterMap_map, List.map_filterMap]
  congr 1
  funext q
  obtain ⟨a, b⟩ := q
  cases a <;> cases b <;> rfl

/-- Claim C10: the pair evaluator's correlation is symmetric in the two
instruments: over the same synchronized overlap (rows with either series
missing dropped), the correlation of `(A, B)` equals that of `(B, A)`. -/
theorem correlation_symm (ra rb : List (Option ℚ)) :
    correlation ra rb = correlation rb ra := by
  simp only [correlation]
  rw [mergedRows_swap ra rb, pearson_swap]

end Algo

